import Mathlib

/-!
Verification of the sketch-indexing and candidate-generation core of
RMapAlign3N (src/candidates.h, src/database.h, src/options.cpp).

The C++ data model is shallowly embedded: machine integers (window_id,
target_id, std::size_t, the uint_least64_t hit counter) are modelled as Nat.
All functions below are translated from the corresponding C++ functions;
comments reference the original symbols.
-/

namespace RMA

/-- Internal location representation, database::location:
(window index, target index), mirrors the C++ field order (win, tgt). -/
structure location where
  win : Nat
  tgt : Nat
deriving DecidableEq, Repr

/-- Strict order on locations, database::location::operator<:
by target first, then window. -/
def locLt (a b : location) : Prop :=
  a.tgt < b.tgt ∨ (a.tgt = b.tgt ∧ a.win < b.win)

instance (a b : location) : Decidable (locLt a b) :=
  inferInstanceAs (Decidable (a.tgt < b.tgt ∨ (a.tgt = b.tgt ∧ a.win < b.win)))

/-- Non-strict companion order: a precedes-or-equals b iff not (b < a).
This is the order in which a list sorted with locLt is non-decreasing. -/
def locLe (a b : location) : Prop := ¬ locLt b a

instance (a b : location) : Decidable (locLe a b) :=
  inferInstanceAs (Decidable (¬ locLt b a))

theorem locLe_iff {a b : location} :
    locLe a b ↔ (a.tgt < b.tgt ∨ (a.tgt = b.tgt ∧ a.win ≤ b.win)) := by
  unfold locLe locLt
  constructor
  · intro h
    push_neg at h
    omega
  · intro h hlt
    omega

theorem locLt_iff {a b : location} :
    locLt a b ↔ (a.tgt < b.tgt ∨ (a.tgt = b.tgt ∧ a.win < b.win)) := Iff.rfl

theorem locLe_trans {a b c : location} (h₁ : locLe a b) (h₂ : locLe b c) :
    locLe a c := by
  rw [locLe_iff] at h₁ h₂ ⊢
  omega

instance : IsTrans location locLe := ⟨fun _ _ _ => locLe_trans⟩

theorem locLe_total (a b : location) : locLe a b ∨ locLe b a := by
  rw [locLe_iff, locLe_iff]
  omega

theorem locLt_le {a b : location} (h : locLt a b) : locLe a b := by
  rw [locLt_iff] at h
  rw [locLe_iff]
  omega

theorem locLt_trans {a b c : location} (h₁ : locLt a b) (h₂ : locLt b c) :
    locLt a c := by
  rw [locLt_iff] at h₁ h₂ ⊢
  omega

instance : IsTrans location locLt := ⟨fun _ _ _ => locLt_trans⟩

/-- Inclusive window index range [beg,end] (struct window_range).
Field fin models the C++ field named end (a reserved word in Lean). -/
structure window_range where
  beg : Nat
  fin : Nat
deriving DecidableEq, Repr

/-- Hit count and position in candidate target (struct match_candidate). -/
structure match_candidate where
  tgt : Nat
  hits : Nat
  pos : window_range
deriving DecidableEq, Repr

/-- Value of std::numeric_limits of std::size_t max on an LP64 platform. -/
def sizeTMax : Nat := 2 ^ 64 - 1

/-- Candidate generation parameters (struct candidate_generation_rules). -/
structure candidate_generation_rules where
  maxWindowsInRange : Nat := 3
  maxCandidates : Nat := sizeTMax
deriving DecidableEq, Repr

/-- Inner while-loop of for_all_contiguous_window_ranges:
while (fst != lst and lst->win - fst->win >= numWindows) { hits--; ++fst; }.
The iterator pair [fst, lst] is represented by the list of locations from
fst to lst inclusive (so fst == lst iff the list is a singleton); machine
subtraction of the unsigned window ids is Nat truncated subtraction. -/
def advanceFst (numWindows lstWin : Nat) :
    List location → Nat → List location × Nat
  | [], hits => ([], hits)
  | [a], hits => ([a], hits)
  | a :: b :: t, hits =>
    if numWindows ≤ lstWin - a.win then
      advanceFst numWindows lstWin (b :: t) (hits - 1)
    else (a :: b :: t, hits)

/-- Main loop of for_all_contiguous_window_ranges, processing the remaining
matches one at a time.  range is the current iterator span [fst, lst],
hits the running hit counter, curBest the per-target best candidate, and
s the consumer state (the C++ consumer is a stateful closure, modelled as
a state-passing function returning the continue flag). -/
def fawr_loop {σ : Type} (numWindows : Nat)
    (consume : σ → match_candidate → σ × Bool) :
    List location → List location → Nat → match_candidate → σ → σ
  | [], _range, _hits, curBest, s => (consume s curBest).1
  | x :: rest, range, hits, curBest, s =>
    if x.tgt = curBest.tgt then
      let p := advanceFst numWindows x.win (range ++ [x]) (hits + 1)
      let curBest1 :=
        if curBest.hits < p.2 then
          { tgt := curBest.tgt, hits := p.2,
            pos := { beg := (p.1.headD x).win, fin := x.win } }
        else curBest
      fawr_loop numWindows consume rest p.1 p.2 curBest1 s
    else
      let r := consume s curBest
      if r.2 then
        fawr_loop numWindows consume rest [x] 1
          { tgt := x.tgt, hits := 1, pos := { beg := x.win, fin := x.win } } r.1
      else r.1

/-- Produces all contiguous window ranges of matches that are at most
numWindows long; the main loop is aborted if consume returns false
(for_all_contiguous_window_ranges in candidates.h).
Precondition in the source: matches sorted by target first, window second. -/
def for_all_contiguous_window_ranges {σ : Type} (matchlist : List location)
    (numWindows : Nat) (consume : σ → match_candidate → σ × Bool) (s : σ) : σ :=
  match matchlist with
  | [] => s
  | fst :: rest =>
    fawr_loop numWindows consume rest [fst] 1
      { tgt := fst.tgt, hits := 1, pos := { beg := fst.win, fin := fst.win } } s

/-- Candidate list of class distinct_matches_in_contiguous_window_ranges:
its insert appends every emitted candidate and always continues. -/
def distinct_matches_in_contiguous_window_ranges (matchlist : List location)
    (rules : candidate_generation_rules) : List match_candidate :=
  for_all_contiguous_window_ranges matchlist rules.maxWindowsInRange
    (fun cand_ c => (cand_ ++ [c], true)) []

/-- Method insert of best_distinct_matches_in_contiguous_window_ranges:
find the std::upper_bound position under the hits-descending comparator,
insert there if the position is not the end or the list is not full, then
truncate to maxCandidates.  On a hits-descending list, std::upper_bound
returns the boundary between the prefix of entries with hits at least
cand.hits and the rest, expressed here with takeWhile / dropWhile. -/
def best_distinct_insert (rules : candidate_generation_rules)
    (top_ : List match_candidate) (cand : match_candidate) :
    List match_candidate :=
  let pre := top_.takeWhile (fun b => decide (cand.hits ≤ b.hits))
  let post := top_.dropWhile (fun b => decide (cand.hits ≤ b.hits))
  if post ≠ [] ∨ top_.length < rules.maxCandidates then
    let t := pre ++ cand :: post
    if rules.maxCandidates < t.length then t.take rules.maxCandidates else t
  else top_

/-- Candidate list built by the constructor of
best_distinct_matches_in_contiguous_window_ranges: runs the generator with
insert as the consumer (insert always returns true). -/
def best_distinct_matches_in_contiguous_window_ranges (matchlist : List location)
    (rules : candidate_generation_rules) : List match_candidate :=
  for_all_contiguous_window_ranges matchlist rules.maxWindowsInRange
    (fun top_ c => (best_distinct_insert rules top_ c, true)) []

/-- Deterministic model of std::merge over location ranges with operator<:
an element is taken from the second range only when it is strictly smaller
than the head of the first range. -/
def stdMerge : List location → List location → List location
  | [], ys => ys
  | xs, [] => xs
  | x :: xs, y :: ys =>
    if locLt y x then y :: stdMerge (x :: xs) ys
    else x :: stdMerge xs (y :: ys)
termination_by xs ys => xs.length + ys.length

/-- Read offsets[i]; indices used by merge_sort are always in bounds. -/
def off (o : List Nat) (i : Nat) : Nat := o.getD i 0

/-- Contiguous slice [a, b) of a list, the iterator range
(inout.begin()+a, inout.begin()+b). -/
def seg (l : List location) (a b : Nat) : List location :=
  (l.drop a).take (b - a)

/-- Inner loop of matches_sorter::merge_sort for one pass with chunk step s:
for (i = 0; i < numChunks; i += 2*s) std::merge over
[offsets[i], mid) and [mid, end) with the i+s and i+2*s indices capped at
numChunks.  The pass output is the concatenation of the merged pieces
(the contents of the temp buffer, which the pass fills completely when
offsets starts at 0 and ends at inout.size()).  The 0 < s conjunct is a
totality guard: every call site has s at least 1, matching the C++ loop
whose step starts at 1 and doubles. -/
def mergePassFrom (inout : List location) (o : List Nat) (n s i : Nat) :
    List location :=
  if _h : i < n ∧ 0 < s then
    let b := off o i
    let m := if i + s ≤ n then off o (i + s) else off o n
    let e := if i + 2 * s ≤ n then off o (i + 2 * s) else off o n
    stdMerge (seg inout b m) (seg inout m e) ++
      mergePassFrom inout o n s (i + 2 * s)
  else []
termination_by n - i
decreasing_by omega

/-- Outer loop of matches_sorter::merge_sort:
for (s = 1; s < numChunks; s *= 2) do one pass, then continue on the
swapped buffer.  The 0 < s conjunct is a totality guard as above. -/
def mergeSortPasses (o : List Nat) (n s : Nat) (inout : List location) :
    List location :=
  if h : s < n ∧ 0 < s then
    mergeSortPasses o n (2 * s) (mergePassFrom inout o n s 0)
  else inout
termination_by n - s
decreasing_by omega

/-- In-place bottom-up k-way merge, matches_sorter::merge_sort:
returns immediately when offsets has fewer than 3 entries (at most one
chunk), otherwise runs the doubling passes with numChunks =
offsets.size() - 1. -/
def merge_sort (inout : List location) (offsets : List Nat) : List location :=
  if offsets.length < 3 then inout
  else mergeSortPasses offsets (offsets.length - 1) 1 inout

/-- Query result accumulation state, database::matches_sorter.
The temp buffer temp_ is scratch for merge_sort and carries no state
between calls, so it is not part of the model. -/
structure matches_sorter where
  locs : List location
  offsets : List Nat
deriving DecidableEq, Repr

/-- Method matches_sorter::sort: merge_sort(locs_, offsets_, temp_). -/
def matches_sorter.sort (m : matches_sorter) : matches_sorter :=
  { m with locs := merge_sort m.locs m.offsets }

/-- Method matches_sorter::clear: locs_.clear(); offsets_.clear();
offsets_.resize(1, 0). -/
def matches_sorter.clear (_m : matches_sorter) : matches_sorter :=
  { locs := [], offsets := [0] }

/-- Per-sketch part of database::accumulate_matches: for each feature of
the sketch, look its bucket up in the feature store; if found and
non-empty, append the bucket to locs_ and push the new locs_.size() onto
offsets_.  The feature store is abstracted as the bucket-valued lookup
function f, with a failed find represented by the empty bucket; the
offsets_.reserve call has no observable effect. -/
def accumulate_sketch (features_ : Nat → List location) (sk : List Nat)
    (res : matches_sorter) : matches_sorter :=
  sk.foldl
    (fun r f =>
      let locs := features_ f
      if 0 < locs.length then
        { locs := r.locs ++ locs, offsets := r.offsets ++ [(r.locs ++ locs).length] }
      else r)
    res

/-- Method database::accumulate_matches: the query sketcher (external to
this core) yields one feature sketch per query window; each is processed
by accumulate_sketch in window order. -/
def accumulate_matches (features_ : Nat → List location)
    (query : List (List Nat)) (res : matches_sorter) : matches_sorter :=
  query.foldl (fun r sk => accumulate_sketch features_ sk r) res

/-- Sequence of accumulate_matches calls, each against an arbitrary
feature store with an arbitrary list of query sketches, applied to an
accumulator state in order. -/
def run_accumulations
    (calls : List ((Nat → List location) × List (List Nat)))
    (m : matches_sorter) : matches_sorter :=
  calls.foldl (fun r c => accumulate_matches c.1 c.2 r) m

/-- One (target, window, sketch) tuple handed to the batch executor
(database::window_sketch). -/
structure window_sketch where
  tgt : Nat
  win : Nat
  sk : List Nat

/-- Modelled from the spec: hash_multimap::insert is not among these
sources; per the multimap contract it appends one location to the bucket
keyed by the feature (and returns an iterator to that bucket). -/
def hm_insert (features_ : Nat → List location) (f : Nat) (loc : location) :
    Nat → List location :=
  fun g => if g = f then features_ g ++ [loc] else features_ g

/-- Modelled from the spec: hash_multimap::shrink is not among these
sources; per the multimap contract it truncates the bucket to the given
capacity. -/
def hm_shrink (features_ : Nat → List location) (f : Nat) (cap : Nat) :
    Nat → List location :=
  fun g => if g = f then (features_ g).take cap else features_ g

/-- Inner loop of database::add_sketch_batch over one window sketch:
insert each feature with location (win, tgt) and shrink the bucket
whenever its size exceeds maxLocsPerFeature_. -/
def add_sketch (ws : window_sketch) (features_ : Nat → List location)
    (maxLocsPerFeature_ : Nat) : Nat → List location :=
  ws.sk.foldl
    (fun st2 f =>
      let st3 := hm_insert st2 f { win := ws.win, tgt := ws.tgt }
      if maxLocsPerFeature_ < (st3 f).length then
        hm_shrink st3 f maxLocsPerFeature_
      else st3)
    features_

/-- Method database::add_sketch_batch: process every window sketch of the
batch in order. -/
def add_sketch_batch (batch : List window_sketch)
    (features_ : Nat → List location) (maxLocsPerFeature_ : Nat) :
    Nat → List location :=
  batch.foldl (fun st ws => add_sketch ws st maxLocsPerFeature_) features_

/-- Read pairing mode (enum pairing_mode). -/
inductive pairing_mode where
  | none
  | files
  | sequences
deriving DecidableEq, Repr

/-- SAM output mode (enum sam_mode). -/
inductive sam_mode where
  | none
  | sam
  | bam
deriving DecidableEq, Repr

/-- Classification thresholds of query_options.classify; only the fields
touched by get_query_options are modelled.  The C++ floating-point
thresholds covMin and hitsCutoff are idealized as exact rationals. -/
structure classification_options where
  maxNumCandidatesPerQuery : Nat
  hitsCutoff : ℚ
  covMin : ℚ
  align : Bool
deriving DecidableEq

/-- Performance fields of query_options normalized by get_query_options. -/
structure performance_options where
  numThreads : Int
  batchSize : Int
  queryLimit : Int
deriving DecidableEq, Repr

/-- Output fields of query_options consulted by get_query_options. -/
structure output_options where
  samMode : sam_mode
deriving DecidableEq, Repr

/-- Database-configuration fields touched by get_query_options. -/
structure database_storage_options where
  rereadTargets : Bool
deriving DecidableEq, Repr

/-- Query-mode options record (struct query_options), restricted to the
fields read or written by the post-parse normalization. -/
structure query_options where
  infiles : List String
  pairing : pairing_mode
  classify : classification_options
  performance : performance_options
  output : output_options
  dbconfig : database_storage_options
deriving DecidableEq

/-- Lexicographic comparison of std::string via operator<: byte-wise
std::lexicographical_compare, modelled on the character data. -/
def string_lt (a b : String) : Prop := a.data < b.data

instance (a b : String) : Decidable (string_lt a b) :=
  inferInstanceAs (Decidable (a.data < b.data))

/-- Insertion step of the sorting model below. -/
def insert_sorted (x : String) : List String → List String
  | [] => [x]
  | y :: ys => if string_lt y x then y :: insert_sorted x ys else x :: y :: ys

/-- Model of std::sort(infiles.begin(), infiles.end()): the input sorted
in non-decreasing lexicographic order.  Equal strings are identical, so
the sorted permutation is unique and independent of the sorting algorithm. -/
def sort_strings : List String → List String
  | [] => []
  | x :: xs => insert_sorted x (sort_strings xs)

/-- Pairing-mode block of get_query_options: if pairing is files, sort
the input file list when it has more than one entry, otherwise silently
fall back to unpaired mode. -/
def gqo_pair_sort (opt0 : query_options) : query_options :=
  if opt0.pairing = pairing_mode.files then
    if 1 < opt0.infiles.length then
      { opt0 with infiles := sort_strings opt0.infiles }
    else
      { opt0 with pairing := pairing_mode.none }
  else opt0

/-- Threshold block of get_query_options: interpret numbers greater
than 1 as percentages for covMin and hitsCutoff, and turn a
maxNumCandidatesPerQuery below 1 into the size_t maximum.  The double
literal 0.01 is idealized as the exact rational 1/100. -/
def gqo_thresholds (opt : query_options) : query_options :=
  let cl0 := opt.classify
  let cl1 :=
    if 1 < cl0.covMin then { cl0 with covMin := cl0.covMin * (1 / 100) }
    else cl0
  let cl2 :=
    if 1 < cl1.hitsCutoff then
      { cl1 with hitsCutoff := cl1.hitsCutoff * (1 / 100) }
    else cl1
  let cl3 :=
    if cl2.maxNumCandidatesPerQuery < 1 then
      { cl2 with maxNumCandidatesPerQuery := sizeTMax }
    else cl2
  { opt with classify := cl3 }

/-- Performance block of get_query_options: clamp thread count and batch
size to at least 1 and the query limit to at least 0. -/
def gqo_perf (opt : query_options) : query_options :=
  let pf0 := opt.performance
  let pf1 := if pf0.numThreads < 1 then { pf0 with numThreads := 1 } else pf0
  let pf2 := if pf1.batchSize < 1 then { pf1 with batchSize := 1 } else pf1
  let pf3 := if pf2.queryLimit < 0 then { pf2 with queryLimit := 0 } else pf2
  { opt with performance := pf3 }

/-- Final block of get_query_options: alignment or SAM output forces
re-reading the targets. -/
def gqo_reread (opt : query_options) : query_options :=
  if opt.classify.align = true ∨ opt.output.samMode ≠ sam_mode.none then
    { opt with dbconfig := { opt.dbconfig with rereadTargets := true } }
  else opt

/-- Post-parse normalization performed by get_query_options in
options.cpp after clipp::parse succeeds (the parse itself and
replace_directories_with_contained_files are external collaborators;
infiles is the file list after directory expansion).  The blocks appear
in source order. -/
def get_query_options (opt0 : query_options) : query_options :=
  gqo_reread (gqo_perf (gqo_thresholds (gqo_pair_sort opt0)))

/-!  Theorems.  Short helper lemmas come first, then one theorem per
claim, each preceded by a doc comment naming the claim. -/

theorem string_le_of_not_lt {a b : String} (h : ¬ string_lt b a) :
    a.data ≤ b.data := by
  unfold string_lt at h
  exact le_of_not_lt h

theorem insert_sorted_perm (x : String) (l : List String) :
    (insert_sorted x l).Perm (x :: l) := by
  induction l with
  | nil => simp [insert_sorted]
  | cons y ys ih =>
    unfold insert_sorted
    split
    · exact ((ih.cons y).trans (List.Perm.swap x y ys)).symm.symm
    · exact List.Perm.refl _

theorem sort_strings_perm (l : List String) : (sort_strings l).Perm l := by
  induction l with
  | nil => simp [sort_strings]
  | cons x xs ih =>
    exact (insert_sorted_perm x (sort_strings xs)).trans (ih.cons x)

theorem insert_sorted_sorted (x : String) (l : List String)
    (h : List.Sorted (fun a b => ¬ string_lt b a) l) :
    List.Sorted (fun a b => ¬ string_lt b a) (insert_sorted x l) := by
  induction l with
  | nil => simp [insert_sorted]
  | cons y ys ih =>
    rw [List.sorted_cons] at h
    unfold insert_sorted
    split
    · rename_i hyx
      rw [List.sorted_cons]
      refine ⟨?_, ih h.2⟩
      intro z hz
      rcases List.mem_cons.mp ((insert_sorted_perm x ys).mem_iff.mp hz) with hzx | hzys
      · subst hzx
        unfold string_lt at hyx ⊢
        exact not_lt.mpr (le_of_lt hyx)
      · exact h.1 z hzys
    · rename_i hxy
      rw [List.sorted_cons]
      refine ⟨?_, List.sorted_cons.mpr h⟩
      intro z hz
      rcases List.mem_cons.mp hz with hzy | hzys
      · subst hzy; exact hxy
      · have h1 : x.data ≤ y.data := string_le_of_not_lt hxy
        have h2 : y.data ≤ z.data := string_le_of_not_lt (h.1 z hzys)
        unfold string_lt
        exact not_lt.mpr (h1.trans h2)

theorem sort_strings_sorted (l : List String) :
    List.Sorted (fun a b => ¬ string_lt b a) (sort_strings l) := by
  induction l with
  | nil => simp [sort_strings]
  | cons x xs ih => exact insert_sorted_sorted x _ ih

theorem gqo_pair_sort_classify (o : query_options) :
    (gqo_pair_sort o).classify = o.classify := by
  unfold gqo_pair_sort; split_ifs <;> rfl

theorem gqo_thresholds_pairing (o : query_options) :
    (gqo_thresholds o).pairing = o.pairing := by
  simp only [gqo_thresholds]

theorem gqo_thresholds_infiles (o : query_options) :
    (gqo_thresholds o).infiles = o.infiles := by
  simp only [gqo_thresholds]

theorem gqo_thresholds_covMin (o : query_options) :
    (gqo_thresholds o).classify.covMin =
      (if 1 < o.classify.covMin then o.classify.covMin * (1 / 100)
       else o.classify.covMin) := by
  simp only [gqo_thresholds]
  split_ifs <;> simp_all

theorem gqo_thresholds_hitsCutoff (o : query_options) :
    (gqo_thresholds o).classify.hitsCutoff =
      (if 1 < o.classify.hitsCutoff then o.classify.hitsCutoff * (1 / 100)
       else o.classify.hitsCutoff) := by
  simp only [gqo_thresholds]
  split_ifs <;> simp_all

theorem gqo_thresholds_maxcand (o : query_options) :
    (gqo_thresholds o).classify.maxNumCandidatesPerQuery =
      (if o.classify.maxNumCandidatesPerQuery < 1 then sizeTMax
       else o.classify.maxNumCandidatesPerQuery) := by
  simp only [gqo_thresholds]
  split_ifs <;> simp_all

theorem gqo_perf_classify (o : query_options) :
    (gqo_perf o).classify = o.classify := by
  simp only [gqo_perf]

theorem gqo_perf_pairing (o : query_options) :
    (gqo_perf o).pairing = o.pairing := by
  simp only [gqo_perf]

theorem gqo_perf_infiles (o : query_options) :
    (gqo_perf o).infiles = o.infiles := by
  simp only [gqo_perf]

theorem gqo_reread_classify (o : query_options) :
    (gqo_reread o).classify = o.classify := by
  unfold gqo_reread; split_ifs <;> rfl

theorem gqo_reread_pairing (o : query_options) :
    (gqo_reread o).pairing = o.pairing := by
  unfold gqo_reread; split_ifs <;> rfl

theorem gqo_reread_infiles (o : query_options) :
    (gqo_reread o).infiles = o.infiles := by
  unfold gqo_reread; split_ifs <;> rfl

/-- C2: on the sorted match list
[(t=0,w=0),(0,1),(0,2),(0,10),(0,11),(1,0)] with numWindows 3 and a
consumer that always returns true, for_all_contiguous_window_ranges emits
exactly two candidates, in this order: first (tgt 0, hits 3, beg 0,
end 2), then (tgt 1, hits 1, beg 0, end 0). -/
theorem C2_sliding_window_scenario :
    for_all_contiguous_window_ranges
      [⟨0, 0⟩, ⟨1, 0⟩, ⟨2, 0⟩, ⟨10, 0⟩, ⟨11, 0⟩, ⟨0, 1⟩] 3
      (fun acc c => (acc ++ [c], true)) ([] : List match_candidate)
      = [⟨0, 3, ⟨0, 2⟩⟩, ⟨1, 1, ⟨0, 0⟩⟩] := by
  rfl

/-- C8: for every parsed query command line, get_query_options interprets
the classification thresholds covMin and hitsCutoff as percentages exactly
when they exceed 1: a parsed value v greater than 1 is stored as v * 0.01,
any other value is stored unchanged. -/
theorem C8_percentage_thresholds (opt : query_options) :
    (get_query_options opt).classify.covMin =
      (if 1 < opt.classify.covMin then opt.classify.covMin * (1 / 100)
       else opt.classify.covMin)
    ∧ (get_query_options opt).classify.hitsCutoff =
      (if 1 < opt.classify.hitsCutoff then opt.classify.hitsCutoff * (1 / 100)
       else opt.classify.hitsCutoff) := by
  unfold get_query_options
  rw [gqo_reread_classify, gqo_perf_classify]
  constructor
  · rw [gqo_thresholds_covMin, gqo_pair_sort_classify]
  · rw [gqo_thresholds_hitsCutoff, gqo_pair_sort_classify]

/-- C9: for every parsed query command line whose -maxcand value is a
number less than 1 (as a size_t, the value 0), get_query_options sets
maxNumCandidatesPerQuery to the maximum value of size_t, making the
per-query candidate count effectively unlimited rather than zero. -/
theorem C9_maxcand_unlimited (opt : query_options)
    (h : opt.classify.maxNumCandidatesPerQuery < 1) :
    (get_query_options opt).classify.maxNumCandidatesPerQuery = sizeTMax := by
  unfold get_query_options
  rw [gqo_reread_classify, gqo_perf_classify, gqo_thresholds_maxcand,
    gqo_pair_sort_classify, if_pos h]

/-- Witness for C9 at a concrete options record with -maxcand 0. -/
theorem C9_witness :
    (get_query_options
      { infiles := ["reads.fq"], pairing := pairing_mode.none,
        classify := { maxNumCandidatesPerQuery := 0, hitsCutoff := 0,
                      covMin := 0, align := false },
        performance := { numThreads := 4, batchSize := 4096, queryLimit := 0 },
        output := { samMode := sam_mode.none },
        dbconfig := { rereadTargets := false } }).classify.maxNumCandidatesPerQuery
    = sizeTMax :=
  C9_maxcand_unlimited _ (by decide)

/-- C10: for every parsed query command line that selects -pairfiles but
supplies at most one input file after directory expansion,
get_query_options silently resets the pairing mode to none; with two or
more input files the file list is sorted lexicographically (the result is
the sorted permutation of the input) and the mode stays files. -/
theorem C10_pairing_files (opt : query_options)
    (h : opt.pairing = pairing_mode.files) :
    (opt.infiles.length ≤ 1 →
      (get_query_options opt).pairing = pairing_mode.none)
    ∧ (2 ≤ opt.infiles.length →
      (get_query_options opt).pairing = pairing_mode.files
      ∧ (get_query_options opt).infiles = sort_strings opt.infiles
      ∧ List.Sorted (fun a b => ¬ string_lt b a) (get_query_options opt).infiles
      ∧ ((get_query_options opt).infiles).Perm opt.infiles) := by
  constructor
  · intro hlen
    unfold get_query_options
    rw [gqo_reread_pairing, gqo_perf_pairing, gqo_thresholds_pairing]
    unfold gqo_pair_sort
    rw [if_pos h, if_neg (by omega)]
  · intro hlen
    have h2 : (get_query_options opt).pairing = pairing_mode.files
        ∧ (get_query_options opt).infiles = sort_strings opt.infiles := by
      constructor
      · unfold get_query_options
        rw [gqo_reread_pairing, gqo_perf_pairing, gqo_thresholds_pairing]
        unfold gqo_pair_sort
        rw [if_pos h, if_pos (by omega)]
        exact h
      · unfold get_query_options
        rw [gqo_reread_infiles, gqo_perf_infiles, gqo_thresholds_infiles]
        unfold gqo_pair_sort
        rw [if_pos h, if_pos (by omega)]
    refine ⟨h2.1, h2.2, ?_, ?_⟩
    · rw [h2.2]; exact sort_strings_sorted _
    · rw [h2.2]; exact sort_strings_perm _

/-- Witness for C10 at concrete records: one unsorted two-file list with
-pairfiles, and a single-file list with -pairfiles. -/
theorem C10_witness :
    ((get_query_options
      { infiles := ["b.fq", "a.fq"], pairing := pairing_mode.files,
        classify := { maxNumCandidatesPerQuery := 2, hitsCutoff := 0,
                      covMin := 0, align := false },
        performance := { numThreads := 1, batchSize := 1, queryLimit := 0 },
        output := { samMode := sam_mode.none },
        dbconfig := { rereadTargets := false } }).infiles
      = sort_strings ["b.fq", "a.fq"])
    ∧ (get_query_options
      { infiles := ["only.fq"], pairing := pairing_mode.files,
        classify := { maxNumCandidatesPerQuery := 2, hitsCutoff := 0,
                      covMin := 0, align := false },
        performance := { numThreads := 1, batchSize := 1, queryLimit := 0 },
        output := { samMode := sam_mode.none },
        dbconfig := { rereadTargets := false } }).pairing
      = pairing_mode.none :=
  ⟨((C10_pairing_files _ rfl).2 (by decide)).2.1,
   (C10_pairing_files _ rfl).1 (by decide)⟩

theorem hm_insert_same (st : Nat → List location) (f : Nat) (loc : location) :
    hm_insert st f loc f = st f ++ [loc] := by
  simp [hm_insert]

theorem hm_insert_other (st : Nat → List location) (f : Nat) (loc : location)
    (g : Nat) (h : g ≠ f) : hm_insert st f loc g = st g := by
  simp [hm_insert, h]

theorem hm_shrink_same (st : Nat → List location) (f cap : Nat) :
    hm_shrink st f cap f = (st f).take cap := by
  simp [hm_shrink]

theorem hm_shrink_other (st : Nat → List location) (f cap g : Nat)
    (h : g ≠ f) : hm_shrink st f cap g = st g := by
  simp [hm_shrink, h]

theorem add_sketch_cap (ws : window_sketch) (cap : Nat) :
    ∀ (st : Nat → List location), (∀ f, (st f).length ≤ cap) →
    ∀ f, (add_sketch ws st cap f).length ≤ cap := by
  obtain ⟨tgt, win, sk⟩ := ws
  simp only [add_sketch]
  induction sk with
  | nil => intro st h f; exact h f
  | cons f0 fs ih =>
    intro st h f
    rw [List.foldl_cons]
    apply ih
    intro g
    split_ifs with hc
    · by_cases hgf : g = f0
      · subst hgf
        rw [hm_shrink_same]
        simp only [List.length_take]
        omega
      · rw [hm_shrink_other _ _ _ _ hgf, hm_insert_other _ _ _ _ hgf]
        exact h g
    · by_cases hgf : g = f0
      · subst hgf
        exact Nat.le_of_not_lt hc
      · rw [hm_insert_other _ _ _ _ hgf]
        exact h g

theorem C6_bucket_cap_aux (cap : Nat) :
    ∀ (batch : List window_sketch) (features_ : Nat → List location),
    (∀ f, (features_ f).length ≤ cap) →
    ∀ f, (add_sketch_batch batch features_ cap f).length ≤ cap := by
  intro batch
  induction batch with
  | nil => intro features_ h f; exact h f
  | cons ws bs ih =>
    intro features_ h f
    unfold add_sketch_batch at ih ⊢
    rw [List.foldl_cons]
    exact ih _ (add_sketch_cap ws cap features_ h) f

/-- C6: after add_sketch_batch processes a batch of window sketches
(inserting every feature of every sketch and shrinking any bucket whose
size exceeds the cap), every bucket of the feature store has size at most
maxLocsPerFeature_, given that every bucket respected the cap before the
batch (true of the empty store and preserved by every batch); insert and
shrink are the spec-level multimap contracts. -/
theorem C6_bucket_cap (batch : List window_sketch)
    (features_ : Nat → List location) (maxLocsPerFeature_ : Nat)
    (h : ∀ f, (features_ f).length ≤ maxLocsPerFeature_) :
    ∀ f, (add_sketch_batch batch features_ maxLocsPerFeature_ f).length
      ≤ maxLocsPerFeature_ :=
  C6_bucket_cap_aux maxLocsPerFeature_ batch features_ h

/-- Witness for C6: a batch whose sketch repeats feature 7 three times
against the empty store with cap 2; the resulting bucket respects the cap. -/
theorem C6_witness :
    (add_sketch_batch [⟨0, 0, [7, 7, 7]⟩] (fun _ => []) 2 7).length ≤ 2 :=
  C6_bucket_cap [⟨0, 0, [7, 7, 7]⟩] (fun _ => []) 2 (fun _ => by simp) 7

theorem accumulate_sketch_inv (features_ : Nat → List location)
    (sk : List Nat) :
    ∀ (m : matches_sorter),
    m.offsets.head? = some 0 →
    List.Chain' (· ≤ ·) m.offsets →
    m.offsets.getLast? = some m.locs.length →
    (accumulate_sketch features_ sk m).offsets.head? = some 0
    ∧ List.Chain' (· ≤ ·) (accumulate_sketch features_ sk m).offsets
    ∧ (accumulate_sketch features_ sk m).offsets.getLast?
        = some (accumulate_sketch features_ sk m).locs.length := by
  simp only [accumulate_sketch]
  induction sk with
  | nil => intro m h1 h2 h3; exact ⟨h1, h2, h3⟩
  | cons f fs ih =>
    intro m h1 h2 h3
    rw [List.foldl_cons]
    by_cases hc : 0 < (features_ f).length
    · simp only [hc, if_true]
      apply ih
      · cases ho : m.offsets with
        | nil => rw [ho] at h1; simp at h1
        | cons a t => rw [ho] at h1; simpa using h1
      · refine List.chain'_append.mpr ⟨h2, List.chain'_singleton _, ?_⟩
        intro x hx y hy
        simp only [List.head?_cons, Option.mem_def, Option.some.injEq] at hy
        rw [h3] at hx
        simp only [Option.mem_def, Option.some.injEq] at hx
        subst hx
        subst hy
        simp
      · simp [List.getLast?_concat]
    · simp only [hc, if_false]
      exact ih m h1 h2 h3

theorem accumulate_matches_inv (features_ : Nat → List location)
    (query : List (List Nat)) :
    ∀ (m : matches_sorter),
    m.offsets.head? = some 0 →
    List.Chain' (· ≤ ·) m.offsets →
    m.offsets.getLast? = some m.locs.length →
    (accumulate_matches features_ query m).offsets.head? = some 0
    ∧ List.Chain' (· ≤ ·) (accumulate_matches features_ query m).offsets
    ∧ (accumulate_matches features_ query m).offsets.getLast?
        = some (accumulate_matches features_ query m).locs.length := by
  simp only [accumulate_matches]
  induction query with
  | nil => intro m h1 h2 h3; exact ⟨h1, h2, h3⟩
  | cons sk sks ih =>
    intro m h1 h2 h3
    rw [List.foldl_cons]
    obtain ⟨g1, g2, g3⟩ := accumulate_sketch_inv features_ sk m h1 h2 h3
    exact ih _ g1 g2 g3

/-- C7: for every accumulator state reachable by matches_sorter::clear
followed by any sequence of database::accumulate_matches calls (each
against an arbitrary feature store), offsets_ starts with 0, offsets_ is
non-decreasing, and the last element of offsets_ equals locs_.size(). -/
theorem C7_offsets_invariant (m0 : matches_sorter)
    (calls : List ((Nat → List location) × List (List Nat))) :
    (run_accumulations calls (matches_sorter.clear m0)).offsets.head? = some 0
    ∧ List.Chain' (· ≤ ·)
        (run_accumulations calls (matches_sorter.clear m0)).offsets
    ∧ (run_accumulations calls (matches_sorter.clear m0)).offsets.getLast?
        = some (run_accumulations calls (matches_sorter.clear m0)).locs.length := by
  have general : ∀ (cs : List ((Nat → List location) × List (List Nat)))
      (m : matches_sorter),
      m.offsets.head? = some 0 →
      List.Chain' (· ≤ ·) m.offsets →
      m.offsets.getLast? = some m.locs.length →
      (run_accumulations cs m).offsets.head? = some 0
      ∧ List.Chain' (· ≤ ·) (run_accumulations cs m).offsets
      ∧ (run_accumulations cs m).offsets.getLast?
          = some (run_accumulations cs m).locs.length := by
    intro cs
    simp only [run_accumulations]
    induction cs with
    | nil => intro m h1 h2 h3; exact ⟨h1, h2, h3⟩
    | cons c cs ih =>
      intro m h1 h2 h3
      rw [List.foldl_cons]
      obtain ⟨g1, g2, g3⟩ := accumulate_matches_inv c.1 c.2 m h1 h2 h3
      exact ih _ g1 g2 g3
  exact general calls (matches_sorter.clear m0) (by rfl)
    (by simp [matches_sorter.clear]) (by rfl)

theorem advanceFst_suffix (W w : Nat) :
    ∀ (l : List location) (hits : Nat), (advanceFst W w l hits).1 <:+ l := by
  intro l
  induction l with
  | nil => intro hits; simp [advanceFst]
  | cons a t ih =>
    intro hits
    cases t with
    | nil => simp [advanceFst]
    | cons b t2 =>
      simp only [advanceFst]
      split_ifs with hc
      · exact (ih (hits - 1)).trans (List.suffix_cons a _)
      · exact List.suffix_refl _

theorem advanceFst_ne_nil (W w : Nat) :
    ∀ (l : List location) (hits : Nat), l ≠ [] →
    (advanceFst W w l hits).1 ≠ [] := by
  intro l
  induction l with
  | nil => intro hits h; exact absurd rfl h
  | cons a t ih =>
    intro hits _
    cases t with
    | nil => simp [advanceFst]
    | cons b t2 =>
      simp only [advanceFst]
      split_ifs with hc
      · exact ih (hits - 1) (by simp)
      · simp

theorem advanceFst_getLast (W w : Nat) :
    ∀ (l : List location) (hits : Nat),
    (advanceFst W w l hits).1.getLast? = l.getLast? := by
  intro l
  induction l with
  | nil => intro hits; rfl
  | cons a t ih =>
    intro hits
    cases t with
    | nil => rfl
    | cons b t2 =>
      simp only [advanceFst]
      split_ifs with hc
      · rw [ih (hits - 1), List.getLast?_cons_cons]
      · rfl

theorem advanceFst_len (W w : Nat) :
    ∀ (l : List location) (hits : Nat), hits = l.length →
    (advanceFst W w l hits).2 = (advanceFst W w l hits).1.length := by
  intro l
  induction l with
  | nil => intro hits h; simpa [advanceFst] using h
  | cons a t ih =>
    intro hits h
    cases t with
    | nil => simpa [advanceFst] using h
    | cons b t2 =>
      simp only [advanceFst]
      split_ifs with hc
      · exact ih (hits - 1) (by simp at h ⊢; omega)
      · simpa using h

theorem advanceFst_span (W w : Nat) :
    ∀ (l : List location) (hits : Nat) (d : location), l ≠ [] →
    ((advanceFst W w l hits).1.length = 1
      ∨ w - ((advanceFst W w l hits).1.headD d).win < W) := by
  intro l
  induction l with
  | nil => intro hits d h; exact absurd rfl h
  | cons a t ih =>
    intro hits d _
    cases t with
    | nil => left; rfl
    | cons b t2 =>
      simp only [advanceFst]
      split_ifs with hc
      · exact ih (hits - 1) d (by simp)
      · right; simpa using Nat.lt_of_not_le hc

theorem fawr_push_acc (W : Nat) :
    ∀ (rest range : List location) (hits : Nat) (cur : match_candidate)
      (A : List match_candidate),
    fawr_loop W (fun acc c => (acc ++ [c], true)) rest range hits cur A
      = A ++ fawr_loop W (fun acc c => (acc ++ [c], true)) rest range hits cur [] := by
  intro rest
  induction rest with
  | nil => intro range hits cur A; simp [fawr_loop]
  | cons x rest ih =>
    intro range hits cur A
    simp only [fawr_loop]
    split_ifs with htgt hcb
    · exact ih _ _ _ A
    · exact ih _ _ _ A
    · rw [ih _ _ _ (A ++ [cur]), ih _ _ _ ([] ++ [cur])]
      simp

theorem fawr_loop_foldl {σ : Type} (W : Nat) (g : σ → match_candidate → σ) :
    ∀ (rest range : List location) (hits : Nat) (cur : match_candidate) (s : σ),
    fawr_loop W (fun st c => (g st c, true)) rest range hits cur s
      = List.foldl g s
          (fawr_loop W (fun acc c => (acc ++ [c], true)) rest range hits cur []) := by
  intro rest
  induction rest with
  | nil => intro range hits cur s; simp [fawr_loop]
  | cons x rest ih =>
    intro range hits cur s
    simp only [fawr_loop]
    split_ifs with htgt hcb
    · exact ih _ _ _ s
    · exact ih _ _ _ s
    · rw [ih _ _ _ (g s cur),
        fawr_push_acc W rest [x] 1 _ ([] ++ [cur])]
      simp [List.foldl_append]

theorem fawr_emitted_tgts (W : Nat) :
    ∀ (rest range : List location) (hits : Nat) (cur : match_candidate),
    range ≠ [] →
    List.Chain' locLe (range ++ rest) →
    (∀ l ∈ range, l.tgt = cur.tgt) →
    ∃ c0 out2,
      fawr_loop W (fun acc c => (acc ++ [c], true)) rest range hits cur []
        = c0 :: out2
      ∧ c0.tgt = cur.tgt
      ∧ List.Chain' (fun a b : match_candidate => a.tgt < b.tgt) (c0 :: out2) := by
  intro rest
  induction rest with
  | nil =>
    intro range hits cur hne hch htg
    exact ⟨cur, [], by simp [fawr_loop], rfl, List.chain'_singleton _⟩
  | cons x rest ih =>
    intro range hits cur hne hch htg
    simp only [fawr_loop]
    split_ifs with htgt hcb
    · have hne2 : (advanceFst W x.win (range ++ [x]) (hits + 1)).1 ≠ [] :=
        advanceFst_ne_nil W x.win _ _ (by simp)
      have hsuf : (advanceFst W x.win (range ++ [x]) (hits + 1)).1 <:+ range ++ [x] :=
        advanceFst_suffix W x.win _ _
      have hch2 : List.Chain'
          locLe ((advanceFst W x.win (range ++ [x]) (hits + 1)).1 ++ rest) := by
        apply List.Chain'.suffix hch
        obtain ⟨u, hu⟩ := hsuf
        refine ⟨u, ?_⟩
        rw [← List.append_assoc, hu]
        simp
      have htg2 : ∀ l ∈ (advanceFst W x.win (range ++ [x]) (hits + 1)).1,
          l.tgt = cur.tgt := by
        intro l hl
        rcases List.mem_append.mp (hsuf.subset hl) with h1 | h2
        · exact htg l h1
        · rw [List.mem_singleton.mp h2]
          exact htgt
      exact ih _ _ _ hne2 hch2 htg2
    · have hne2 : (advanceFst W x.win (range ++ [x]) (hits + 1)).1 ≠ [] :=
        advanceFst_ne_nil W x.win _ _ (by simp)
      have hsuf : (advanceFst W x.win (range ++ [x]) (hits + 1)).1 <:+ range ++ [x] :=
        advanceFst_suffix W x.win _ _
      have hch2 : List.Chain'
          locLe ((advanceFst W x.win (range ++ [x]) (hits + 1)).1 ++ rest) := by
        apply List.Chain'.suffix hch
        obtain ⟨u, hu⟩ := hsuf
        refine ⟨u, ?_⟩
        rw [← List.append_assoc, hu]
        simp
      have htg2 : ∀ l ∈ (advanceFst W x.win (range ++ [x]) (hits + 1)).1,
          l.tgt = cur.tgt := by
        intro l hl
        rcases List.mem_append.mp (hsuf.subset hl) with h1 | h2
        · exact htg l h1
        · rw [List.mem_singleton.mp h2]
          exact htgt
      exact ih _ _ _ hne2 hch2 htg2
    · have hch2 : List.Chain' locLe ([x] ++ rest) :=
        hch.suffix (List.suffix_append range (x :: rest))
      obtain ⟨c0, o2, heq, ht0, hcn⟩ :=
        ih [x] 1 { tgt := x.tgt, hits := 1, pos := { beg := x.win, fin := x.win } }
          (by simp) hch2 (by simp)
      have hlr : range.getLast? = some (range.getLast hne) :=
        List.getLast?_eq_getLast _ hne
      have hlrtgt : (range.getLast hne).tgt = cur.tgt :=
        htg _ (List.getLast_mem hne)
      have hle : locLe (range.getLast hne) x := by
        have hlink := (List.chain'_append.mp hch).2.2
        exact hlink _ (by rw [hlr]; rfl) x rfl
      have hlt : cur.tgt < x.tgt := by
        rw [locLe_iff] at hle
        have hne3 : ¬ x.tgt = cur.tgt := htgt
        omega
      refine ⟨cur, c0 :: o2, ?_, rfl, ?_⟩
      · rw [fawr_push_acc W rest [x] 1 _ ([] ++ [cur]), heq]
        simp
      · rw [List.chain'_cons]
        refine ⟨?_, hcn⟩
        rw [ht0]
        exact hlt


theorem chain_lt_wins :
    ∀ (l : List location) (T : Nat), List.Chain' locLt l →
    (∀ a ∈ l, a.tgt = T) →
    List.Chain' (fun a b : location => a.win < b.win) l := by
  intro l T
  induction l with
  | nil => intro _ _; simp
  | cons a t ih =>
    cases t with
    | nil => intro _ _; simp
    | cons b t2 =>
      intro hch htg
      rw [List.chain'_cons] at hch ⊢
      refine ⟨?_, ih hch.2 (fun y hy => htg y (List.mem_cons_of_mem a hy))⟩
      have ha := htg a (by simp)
      have hb := htg b (by simp)
      have hab := hch.1
      rw [locLt_iff] at hab
      omega

theorem headD_eq_head {α : Type} (l : List α) (d : α) (h : l ≠ []) :
    l.headD d = l.head h := by
  cases l with
  | nil => exact absurd rfl h
  | cons a t => rfl

theorem head_eq_getLast_of_length_one :
    ∀ (l : List location) (h : l ≠ []), l.length = 1 →
    l.head h = l.getLast h := by
  intro l h hlen
  cases l with
  | nil => exact absurd rfl h
  | cons a t =>
    cases t with
    | nil => rfl
    | cons b t2 => simp at hlen

theorem chain_wins_bounds :
    ∀ (l : List location) (hne : l ≠ []),
    List.Chain' (fun a b : location => a.win < b.win) l →
    (l.head hne).win ≤ (l.getLast hne).win
    ∧ l.length ≤ (l.getLast hne).win - (l.head hne).win + 1 := by
  intro l
  induction l with
  | nil => intro hne; exact absurd rfl hne
  | cons a t ih =>
    intro hne hch
    cases t with
    | nil => simp
    | cons b t2 =>
      rw [List.chain'_cons] at hch
      obtain ⟨ih1, ih2⟩ := ih (by simp) hch.2
      have hlast : (a :: b :: t2).getLast hne = (b :: t2).getLast (by simp) :=
        List.getLast_cons _
      rw [hlast]
      simp only [List.head_cons] at ih1 ih2 ⊢
      have hab := hch.1
      constructor
      · omega
      · simp only [List.length_cons] at ih2 ⊢
        omega

theorem fawr_emitted_inv (W : Nat) (hW : 1 ≤ W) :
    ∀ (rest range : List location) (hits : Nat) (cur : match_candidate),
    range ≠ [] →
    List.Chain' locLt (range ++ rest) →
    (∀ l ∈ range, l.tgt = cur.tgt) →
    hits = range.length →
    (cur.pos.beg ≤ cur.pos.fin ∧ cur.pos.fin - cur.pos.beg + 1 ≤ W
      ∧ cur.hits ≤ cur.pos.fin - cur.pos.beg + 1) →
    ∀ c ∈ fawr_loop W (fun acc c => (acc ++ [c], true)) rest range hits cur [],
      c.pos.beg ≤ c.pos.fin ∧ c.pos.fin - c.pos.beg + 1 ≤ W
      ∧ c.hits ≤ c.pos.fin - c.pos.beg + 1 := by
  intro rest
  induction rest with
  | nil =>
    intro range hits cur hne hch htg hhits hP c hc
    simp only [fawr_loop, List.nil_append, List.mem_singleton] at hc
    subst hc
    exact hP
  | cons x rest ih =>
    intro range hits cur hne hch htg hhits hP
    simp only [fawr_loop]
    split_ifs with htgt hcb
    · -- same target, curBest updated
      have hne2 : (advanceFst W x.win (range ++ [x]) (hits + 1)).1 ≠ [] :=
        advanceFst_ne_nil W x.win _ _ (by simp)
      have hsuf : (advanceFst W x.win (range ++ [x]) (hits + 1)).1 <:+ range ++ [x] :=
        advanceFst_suffix W x.win _ _
      have hch2 : List.Chain'
          locLt ((advanceFst W x.win (range ++ [x]) (hits + 1)).1 ++ rest) := by
        apply List.Chain'.suffix hch
        obtain ⟨u, hu⟩ := hsuf
        refine ⟨u, ?_⟩
        rw [← List.append_assoc, hu]
        simp
      have htg2 : ∀ l ∈ (advanceFst W x.win (range ++ [x]) (hits + 1)).1,
          l.tgt = cur.tgt := by
        intro l hl
        rcases List.mem_append.mp (hsuf.subset hl) with h1 | h2
        · exact htg l h1
        · rw [List.mem_singleton.mp h2]
          exact htgt
      have hhits2 : (advanceFst W x.win (range ++ [x]) (hits + 1)).2
          = (advanceFst W x.win (range ++ [x]) (hits + 1)).1.length :=
        advanceFst_len W x.win _ _ (by simp [hhits])
      have hchP1 : List.Chain'
          locLt (advanceFst W x.win (range ++ [x]) (hits + 1)).1 :=
        (List.chain'_append.mp hch2).1
      have hwins : List.Chain' (fun a b : location => a.win < b.win)
          (advanceFst W x.win (range ++ [x]) (hits + 1)).1 :=
        chain_lt_wins _ cur.tgt hchP1 htg2
      have hlastx : (advanceFst W x.win (range ++ [x]) (hits + 1)).1.getLast hne2
          = x := by
        have h1 := advanceFst_getLast W x.win (range ++ [x]) (hits + 1)
        rw [List.getLast?_eq_getLast _ hne2, List.getLast?_concat] at h1
        exact Option.some.inj h1
      obtain ⟨hhl, hlen⟩ := chain_wins_bounds _ hne2 hwins
      have hbeg : ((advanceFst W x.win (range ++ [x]) (hits + 1)).1.headD x).win
          = ((advanceFst W x.win (range ++ [x]) (hits + 1)).1.head hne2).win := by
        rw [headD_eq_head _ _ hne2]
      have hspan := advanceFst_span W x.win (range ++ [x]) (hits + 1) x (by simp)
      have hPcur1 : ((advanceFst W x.win (range ++ [x]) (hits + 1)).1.headD x).win ≤ x.win
          ∧ x.win - ((advanceFst W x.win (range ++ [x]) (hits + 1)).1.headD x).win + 1 ≤ W
          ∧ (advanceFst W x.win (range ++ [x]) (hits + 1)).2
            ≤ x.win - ((advanceFst W x.win (range ++ [x]) (hits + 1)).1.headD x).win + 1 := by
        rcases hspan with hone | hlt
        · have hhg := head_eq_getLast_of_length_one _ hne2 hone
          rw [hbeg, hhg, hlastx]
          refine ⟨le_refl _, by omega, ?_⟩
          rw [hhits2, hone]
          omega
        · rw [hbeg] at hlt ⊢
          rw [hlastx] at hhl hlen
          refine ⟨hhl, by omega, ?_⟩
          rw [hhits2]
          omega
      exact ih _ _ _ hne2 hch2 htg2 hhits2 hPcur1
    · -- same target, curBest kept
      have hne2 : (advanceFst W x.win (range ++ [x]) (hits + 1)).1 ≠ [] :=
        advanceFst_ne_nil W x.win _ _ (by simp)
      have hsuf : (advanceFst W x.win (range ++ [x]) (hits + 1)).1 <:+ range ++ [x] :=
        advanceFst_suffix W x.win _ _
      have hch2 : List.Chain'
          locLt ((advanceFst W x.win (range ++ [x]) (hits + 1)).1 ++ rest) := by
        apply List.Chain'.suffix hch
        obtain ⟨u, hu⟩ := hsuf
        refine ⟨u, ?_⟩
        rw [← List.append_assoc, hu]
        simp
      have htg2 : ∀ l ∈ (advanceFst W x.win (range ++ [x]) (hits + 1)).1,
          l.tgt = cur.tgt := by
        intro l hl
        rcases List.mem_append.mp (hsuf.subset hl) with h1 | h2
        · exact htg l h1
        · rw [List.mem_singleton.mp h2]
          exact htgt
      have hhits2 : (advanceFst W x.win (range ++ [x]) (hits + 1)).2
          = (advanceFst W x.win (range ++ [x]) (hits + 1)).1.length :=
        advanceFst_len W x.win _ _ (by simp [hhits])
      exact ih _ _ _ hne2 hch2 htg2 hhits2 hP
    · -- new target: emit cur, restart
      have hch2 : List.Chain' locLt ([x] ++ rest) :=
        hch.suffix (List.suffix_append range (x :: rest))
      intro c hc
      rw [fawr_push_acc W rest [x] 1 _ ([] ++ [cur])] at hc
      rcases List.mem_append.mp hc with h1 | h2
      · simp only [List.nil_append, List.mem_singleton] at h1
        subst h1
        exact hP
      · exact ih [x] 1 _ (by simp) hch2 (by simp) (by simp)
          ⟨le_refl _, by simpa using hW, by simp⟩ c h2

/-- C1 counterexample: the claim as stated fails on a list that is sorted
by (target, window) but contains a duplicate location.  On
[(t=0,w=5),(t=0,w=5)] with W = 1 the generator emits the candidate
(tgt 0, hits 2, beg 5, end 5), whose hits exceed end - beg + 1 = 1. -/
theorem C1_counterexample :
    List.Chain' locLe [⟨5, 0⟩, ⟨5, 0⟩]
    ∧ (1 : Nat) ≤ 1
    ∧ ∃ c ∈ distinct_matches_in_contiguous_window_ranges [⟨5, 0⟩, ⟨5, 0⟩]
        { maxWindowsInRange := 1, maxCandidates := 0 },
        ¬ (c.hits ≤ c.pos.fin - c.pos.beg + 1) :=
  ⟨by simp [List.chain'_cons, locLe, locLt], by decide, by decide⟩

/-- C1 (amended): for every list of locations sorted strictly by
(target_id, window_id) — that is, without duplicate locations — and every
window-range limit W at least 1, every candidate emitted by
for_all_contiguous_window_ranges satisfies end - beg + 1 at most W and
hits at most end - beg + 1.  (Any aborting consumer receives a prefix of
this emission stream.) -/
theorem C1_candidate_invariant (matchlist : List location)
    (rules : candidate_generation_rules) (hW : 1 ≤ rules.maxWindowsInRange)
    (hsorted : List.Chain' locLt matchlist) :
    ∀ c ∈ distinct_matches_in_contiguous_window_ranges matchlist rules,
      c.pos.fin - c.pos.beg + 1 ≤ rules.maxWindowsInRange
      ∧ c.hits ≤ c.pos.fin - c.pos.beg + 1 := by
  cases matchlist with
  | nil =>
    intro c hc
    simp [distinct_matches_in_contiguous_window_ranges,
      for_all_contiguous_window_ranges] at hc
  | cons fst rest =>
    intro c hc
    have hres := fawr_emitted_inv rules.maxWindowsInRange hW rest [fst] 1
      { tgt := fst.tgt, hits := 1, pos := { beg := fst.win, fin := fst.win } }
      (by simp) (by simpa using hsorted) (by simp) (by simp)
      ⟨le_refl _, by simpa using hW, by simp⟩ c
      (by simpa [distinct_matches_in_contiguous_window_ranges,
        for_all_contiguous_window_ranges] using hc)
    exact ⟨hres.2.1, hres.2.2⟩

/-- Witness for C1 (amended) on a concrete strictly sorted list. -/
theorem C1_witness :
    (1 : Nat) ≤ 2
    ∧ List.Chain' locLt [⟨0, 0⟩, ⟨1, 0⟩, ⟨5, 1⟩]
    ∧ ∀ c ∈ distinct_matches_in_contiguous_window_ranges [⟨0, 0⟩, ⟨1, 0⟩, ⟨5, 1⟩]
        { maxWindowsInRange := 2, maxCandidates := 0 },
        c.pos.fin - c.pos.beg + 1 ≤ 2 ∧ c.hits ≤ c.pos.fin - c.pos.beg + 1 :=
  ⟨by decide, by simp [List.chain'_cons, locLt],
   C1_candidate_invariant _ _ (by decide)
     (by simp [List.chain'_cons, locLt])⟩

theorem dropWhile_head_not {α : Type} (p : α → Bool) :
    ∀ (l : List α) (y : α) (ys : List α),
    l.dropWhile p = y :: ys → p y = false := by
  intro l
  induction l with
  | nil => intro y ys h; simp [List.dropWhile] at h
  | cons a t ih =>
    intro y ys h
    rw [List.dropWhile_cons] at h
    by_cases hpa : p a
    · rw [if_pos hpa] at h
      exact ih _ _ h
    · rw [if_neg hpa] at h
      injection h with h1 h2
      subst h1
      simpa using hpa

theorem best_insert_inv (rules : candidate_generation_rules)
    (top_ : List match_candidate) (c : match_candidate)
    (hlen : top_.length ≤ rules.maxCandidates)
    (hdesc : List.Pairwise (fun a b => b.hits ≤ a.hits) top_)
    (htie : List.Pairwise (fun a b => a.hits = b.hits → a.tgt < b.tgt) top_)
    (hnd : List.Pairwise (fun a b : match_candidate => a.tgt ≠ b.tgt) top_)
    (htgt : ∀ a ∈ top_, a.tgt < c.tgt) :
    (best_distinct_insert rules top_ c).length ≤ rules.maxCandidates
    ∧ List.Pairwise (fun a b => b.hits ≤ a.hits) (best_distinct_insert rules top_ c)
    ∧ List.Pairwise (fun a b => a.hits = b.hits → a.tgt < b.tgt)
        (best_distinct_insert rules top_ c)
    ∧ List.Pairwise (fun a b : match_candidate => a.tgt ≠ b.tgt)
        (best_distinct_insert rules top_ c)
    ∧ ∀ x ∈ best_distinct_insert rules top_ c, x ∈ c :: top_ := by
  have hsplit :
      top_.takeWhile (fun b => decide (c.hits ≤ b.hits))
        ++ top_.dropWhile (fun b => decide (c.hits ≤ b.hits)) = top_ :=
    List.takeWhile_append_dropWhile _ _
  have hpre : ∀ b ∈ top_.takeWhile (fun b => decide (c.hits ≤ b.hits)),
      c.hits ≤ b.hits := by
    intro b hb
    simpa using List.mem_takeWhile_imp hb
  have hpresub : ∀ b ∈ top_.takeWhile (fun b => decide (c.hits ≤ b.hits)),
      b ∈ top_ := fun b hb => (List.takeWhile_sublist _).subset hb
  have hpostsub : ∀ b ∈ top_.dropWhile (fun b => decide (c.hits ≤ b.hits)),
      b ∈ top_ := fun b hb => (List.dropWhile_sublist _).subset hb
  have hpost : ∀ b ∈ top_.dropWhile (fun b => decide (c.hits ≤ b.hits)),
      b.hits < c.hits := by
    intro b hb
    cases hp : top_.dropWhile (fun b => decide (c.hits ≤ b.hits)) with
    | nil => rw [hp] at hb; cases hb
    | cons y ys =>
      have hy : (decide (c.hits ≤ y.hits)) = false := dropWhile_head_not _ top_ y ys hp
      have hy2 : y.hits < c.hits := by
        simpa using hy
      rw [hp] at hb
      rcases List.mem_cons.mp hb with rfl | hbys
      · exact hy2
      · have hdp : List.Pairwise (fun a b => b.hits ≤ a.hits)
            (top_.dropWhile (fun b => decide (c.hits ≤ b.hits))) :=
          List.Pairwise.sublist (List.dropWhile_sublist _) hdesc
        rw [hp] at hdp
        have := (List.pairwise_cons.mp hdp).1 b hbys
        omega
  have hcross := List.pairwise_append.mp (hsplit ▸ hdesc)
  have hcrosstie := List.pairwise_append.mp (hsplit ▸ htie)
  have hcrossnd := List.pairwise_append.mp (hsplit ▸ hnd)
  have hlen2 : (top_.takeWhile (fun b => decide (c.hits ≤ b.hits))).length
      + (top_.dropWhile (fun b => decide (c.hits ≤ b.hits))).length
      = top_.length := by
    rw [← List.length_append, hsplit]
  have ht_desc : List.Pairwise (fun a b => b.hits ≤ a.hits)
      (top_.takeWhile (fun b => decide (c.hits ≤ b.hits))
        ++ c :: top_.dropWhile (fun b => decide (c.hits ≤ b.hits))) := by
    rw [List.pairwise_append]
    refine ⟨hcross.1, List.pairwise_cons.mpr ⟨fun b hb => le_of_lt (hpost b hb), hcross.2.1⟩, ?_⟩
    intro a ha b hb
    rcases List.mem_cons.mp hb with rfl | hb2
    · exact hpre a ha
    · exact hcross.2.2 a ha b hb2
  have ht_tie : List.Pairwise (fun a b => a.hits = b.hits → a.tgt < b.tgt)
      (top_.takeWhile (fun b => decide (c.hits ≤ b.hits))
        ++ c :: top_.dropWhile (fun b => decide (c.hits ≤ b.hits))) := by
    rw [List.pairwise_append]
    refine ⟨hcrosstie.1,
      List.pairwise_cons.mpr ⟨fun b hb heq => absurd heq (by have := hpost b hb; omega),
        hcrosstie.2.1⟩, ?_⟩
    intro a ha b hb
    rcases List.mem_cons.mp hb with rfl | hb2
    · intro _
      exact htgt a (hpresub a ha)
    · exact hcrosstie.2.2 a ha b hb2
  have ht_nd : List.Pairwise (fun a b : match_candidate => a.tgt ≠ b.tgt)
      (top_.takeWhile (fun b => decide (c.hits ≤ b.hits))
        ++ c :: top_.dropWhile (fun b => decide (c.hits ≤ b.hits))) := by
    rw [List.pairwise_append]
    refine ⟨hcrossnd.1,
      List.pairwise_cons.mpr ⟨fun b hb => Ne.symm (Nat.ne_of_lt (htgt b (hpostsub b hb))),
        hcrossnd.2.1⟩, ?_⟩
    intro a ha b hb
    rcases List.mem_cons.mp hb with rfl | hb2
    · exact Nat.ne_of_lt (htgt a (hpresub a ha))
    · exact hcrossnd.2.2 a ha b hb2
  have ht_sub : ∀ x ∈ top_.takeWhile (fun b => decide (c.hits ≤ b.hits))
        ++ c :: top_.dropWhile (fun b => decide (c.hits ≤ b.hits)),
      x ∈ c :: top_ := by
    intro x hx
    rcases List.mem_append.mp hx with h1 | h2
    · exact List.mem_cons_of_mem _ (hpresub x h1)
    · rcases List.mem_cons.mp h2 with rfl | h3
      · exact List.mem_cons_self _ _
      · exact List.mem_cons_of_mem _ (hpostsub x h3)
  have ht_len : (top_.takeWhile (fun b => decide (c.hits ≤ b.hits))
        ++ c :: top_.dropWhile (fun b => decide (c.hits ≤ b.hits))).length
      = top_.length + 1 := by
    rw [List.length_append, List.length_cons]
    omega
  simp only [best_distinct_insert]
  split_ifs with hcond hbig
  · refine ⟨?_, List.Pairwise.sublist (List.take_sublist _ _) ht_desc,
      List.Pairwise.sublist (List.take_sublist _ _) ht_tie,
      List.Pairwise.sublist (List.take_sublist _ _) ht_nd,
      fun x hx => ht_sub x ((List.take_sublist _ _).subset hx)⟩
    rw [List.length_take]
    omega
  · exact ⟨by omega, ht_desc, ht_tie, ht_nd, ht_sub⟩
  · exact ⟨hlen, hdesc, htie, hnd, fun x hx => List.mem_cons_of_mem _ hx⟩

theorem best_foldl_inv (rules : candidate_generation_rules) :
    ∀ (cands : List match_candidate) (top_ : List match_candidate),
    List.Pairwise (fun a b : match_candidate => a.tgt < b.tgt) cands →
    top_.length ≤ rules.maxCandidates →
    List.Pairwise (fun a b => b.hits ≤ a.hits) top_ →
    List.Pairwise (fun a b => a.hits = b.hits → a.tgt < b.tgt) top_ →
    List.Pairwise (fun a b : match_candidate => a.tgt ≠ b.tgt) top_ →
    (∀ a ∈ top_, ∀ x ∈ cands, a.tgt < x.tgt) →
    (cands.foldl (fun t c => best_distinct_insert rules t c) top_).length
        ≤ rules.maxCandidates
    ∧ List.Pairwise (fun a b => b.hits ≤ a.hits)
        (cands.foldl (fun t c => best_distinct_insert rules t c) top_)
    ∧ List.Pairwise (fun a b => a.hits = b.hits → a.tgt < b.tgt)
        (cands.foldl (fun t c => best_distinct_insert rules t c) top_)
    ∧ List.Pairwise (fun a b : match_candidate => a.tgt ≠ b.tgt)
        (cands.foldl (fun t c => best_distinct_insert rules t c) top_) := by
  intro cands
  induction cands with
  | nil =>
    intro top_ _ h1 h2 h3 h4 _
    exact ⟨h1, h2, h3, h4⟩
  | cons c cs ih =>
    intro top_ hcands hlen hdesc htie hnd hcross
    rw [List.foldl_cons]
    have hpc := List.pairwise_cons.mp hcands
    have hins := best_insert_inv rules top_ c hlen hdesc htie hnd
      (fun a ha => hcross a ha c (List.mem_cons_self _ _))
    refine ih _ hpc.2 hins.1 hins.2.1 hins.2.2.1 hins.2.2.2.1 ?_
    intro a ha x hx
    rcases List.mem_cons.mp (hins.2.2.2.2 a ha) with rfl | ha2
    · exact hpc.1 x hx
    · exact hcross a ha2 x (List.mem_cons_of_mem _ hx)

theorem best_eq_foldl (matchlist : List location)
    (rules : candidate_generation_rules) :
    best_distinct_matches_in_contiguous_window_ranges matchlist rules
      = (distinct_matches_in_contiguous_window_ranges matchlist rules).foldl
          (fun t c => best_distinct_insert rules t c) [] := by
  cases matchlist with
  | nil =>
    simp [best_distinct_matches_in_contiguous_window_ranges,
      distinct_matches_in_contiguous_window_ranges,
      for_all_contiguous_window_ranges]
  | cons fst rest =>
    exact fawr_loop_foldl rules.maxWindowsInRange
      (fun t c => best_distinct_insert rules t c) rest [fst] 1 _ []

theorem distinct_tgts_pairwise (matchlist : List location)
    (rules : candidate_generation_rules)
    (hsorted : List.Chain' locLe matchlist) :
    List.Pairwise (fun a b : match_candidate => a.tgt < b.tgt)
      (distinct_matches_in_contiguous_window_ranges matchlist rules) := by
  cases matchlist with
  | nil =>
    simp [distinct_matches_in_contiguous_window_ranges,
      for_all_contiguous_window_ranges]
  | cons fst rest =>
    obtain ⟨c0, o2, heq, -, hchain⟩ :=
      fawr_emitted_tgts rules.maxWindowsInRange rest [fst] 1
        { tgt := fst.tgt, hits := 1, pos := { beg := fst.win, fin := fst.win } }
        (by simp) (by simpa using hsorted) (by simp)
    have hd : distinct_matches_in_contiguous_window_ranges (fst :: rest) rules
        = c0 :: o2 := heq
    rw [hd]
    letI : IsTrans match_candidate (fun a b => a.tgt < b.tgt) :=
      ⟨fun _ _ _ h1 h2 => Nat.lt_trans h1 h2⟩
    exact List.chain'_iff_pairwise.mp hchain

/-- C4: for every match list sorted by (target_id, window_id) and every
rules value with maxCandidates K, the candidate list produced by
constructing best_distinct_matches_in_contiguous_window_ranges has length
at most K, is sorted by hits in descending order, and contains each
target_id at most once. -/
theorem C4_bestk_invariant (matchlist : List location)
    (rules : candidate_generation_rules)
    (hsorted : List.Chain' locLe matchlist) :
    (best_distinct_matches_in_contiguous_window_ranges matchlist rules).length
        ≤ rules.maxCandidates
    ∧ List.Pairwise (fun a b => b.hits ≤ a.hits)
        (best_distinct_matches_in_contiguous_window_ranges matchlist rules)
    ∧ ((best_distinct_matches_in_contiguous_window_ranges matchlist rules).map
        match_candidate.tgt).Nodup := by
  rw [best_eq_foldl]
  have hfold := best_foldl_inv rules
    (distinct_matches_in_contiguous_window_ranges matchlist rules) []
    (distinct_tgts_pairwise matchlist rules hsorted)
    (by simp) (by simp) (by simp) (by simp) (by simp)
  refine ⟨hfold.1, hfold.2.1, ?_⟩
  rw [List.Nodup, List.pairwise_map]
  exact hfold.2.2.2

/-- Witness for C4 on a concrete sorted list with maxCandidates 1. -/
theorem C4_witness :
    (best_distinct_matches_in_contiguous_window_ranges
        [⟨0, 0⟩, ⟨1, 0⟩, ⟨0, 1⟩] { maxWindowsInRange := 3, maxCandidates := 1 }).length
        ≤ 1
    ∧ List.Pairwise (fun a b => b.hits ≤ a.hits)
        (best_distinct_matches_in_contiguous_window_ranges
          [⟨0, 0⟩, ⟨1, 0⟩, ⟨0, 1⟩] { maxWindowsInRange := 3, maxCandidates := 1 })
    ∧ ((best_distinct_matches_in_contiguous_window_ranges
          [⟨0, 0⟩, ⟨1, 0⟩, ⟨0, 1⟩] { maxWindowsInRange := 3, maxCandidates := 1 }).map
        match_candidate.tgt).Nodup :=
  C4_bestk_invariant _ _ (by simp [List.chain'_cons, locLe, locLt])

/-- C5: in the best-K-distinct policy, equal-hits candidates appear in the
final list in emission order, which is increasing target order (first
conjunct); and an insert attempted when the list is full and no stored
entry has strictly fewer hits than the arriving candidate leaves the list
unchanged, so an equal-hits arrival never displaces an earlier equal-hits
entry (second conjunct). -/
theorem C5_tie_breaking :
    (∀ (matchlist : List location) (rules : candidate_generation_rules),
      List.Chain' locLe matchlist →
      List.Pairwise (fun a b => a.hits = b.hits → a.tgt < b.tgt)
        (best_distinct_matches_in_contiguous_window_ranges matchlist rules))
    ∧ (∀ (rules : candidate_generation_rules) (top_ : List match_candidate)
        (c : match_candidate),
      (∀ b ∈ top_, c.hits ≤ b.hits) → rules.maxCandidates ≤ top_.length →
      best_distinct_insert rules top_ c = top_) := by
  constructor
  · intro matchlist rules hsorted
    rw [best_eq_foldl]
    exact (best_foldl_inv rules
      (distinct_matches_in_contiguous_window_ranges matchlist rules) []
      (distinct_tgts_pairwise matchlist rules hsorted)
      (by simp) (by simp) (by simp) (by simp) (by simp)).2.2.1
  · intro rules top_ c hge hfull
    have hpost : top_.dropWhile (fun b => decide (c.hits ≤ b.hits)) = [] :=
      List.dropWhile_eq_nil_iff.mpr (fun b hb => by simpa using hge b hb)
    have hno : ¬(top_.dropWhile (fun b => decide (c.hits ≤ b.hits)) ≠ []
        ∨ top_.length < rules.maxCandidates) := by
      rw [hpost]
      simp
      omega
    simp only [best_distinct_insert]
    rw [if_neg hno]

/-- Witness for C5: tie ordering on a concrete two-target list with
maxCandidates 1, and a concrete full-list equal-hits insert that leaves
the list unchanged. -/
theorem C5_witness :
    List.Pairwise (fun a b => a.hits = b.hits → a.tgt < b.tgt)
      (best_distinct_matches_in_contiguous_window_ranges
        [⟨0, 0⟩, ⟨0, 1⟩] { maxWindowsInRange := 3, maxCandidates := 1 })
    ∧ best_distinct_insert { maxWindowsInRange := 3, maxCandidates := 1 }
        [⟨0, 2, ⟨0, 1⟩⟩] ⟨1, 2, ⟨0, 1⟩⟩ = [⟨0, 2, ⟨0, 1⟩⟩] :=
  ⟨C5_tie_breaking.1 _ _ (by simp [List.chain'_cons, locLe, locLt]),
   C5_tie_breaking.2 _ _ _ (by decide) (by decide)⟩

theorem stdMerge_perm : ∀ (xs ys : List location),
    (stdMerge xs ys).Perm (xs ++ ys) := by
  intro xs
  induction xs with
  | nil => intro ys; simp [stdMerge]
  | cons x xs ihx =>
    intro ys
    induction ys with
    | nil => simp [stdMerge]
    | cons y ys ihy =>
      rw [stdMerge]
      split_ifs with hlt
      · exact (ihy.cons y).trans List.perm_middle.symm
      · exact (ihx (y :: ys)).cons x

theorem stdMerge_length (xs ys : List location) :
    (stdMerge xs ys).length = xs.length + ys.length := by
  have := (stdMerge_perm xs ys).length_eq
  simpa using this

theorem stdMerge_sorted : ∀ (xs ys : List location),
    List.Pairwise locLe xs → List.Pairwise locLe ys →
    List.Pairwise locLe (stdMerge xs ys) := by
  intro xs
  induction xs with
  | nil => intro ys _ hy; simpa [stdMerge] using hy
  | cons x xs ihx =>
    intro ys hx hy
    induction ys with
    | nil => simpa [stdMerge] using hx
    | cons y ys ihy =>
      rw [stdMerge]
      have hxp := List.pairwise_cons.mp hx
      have hyp := List.pairwise_cons.mp hy
      split_ifs with hlt
      · refine List.pairwise_cons.mpr ⟨?_, ihy hyp.2⟩
        intro z hz
        have hz2 : z ∈ (x :: xs) ++ ys := (stdMerge_perm _ _).subset hz
        rcases List.mem_append.mp hz2 with h1 | h2
        · rcases List.mem_cons.mp h1 with rfl | h3
          · exact locLt_le hlt
          · exact locLe_trans (locLt_le hlt) (hxp.1 z h3)
        · exact hyp.1 z h2
      · refine List.pairwise_cons.mpr ⟨?_, ihx (y :: ys) hxp.2 hy⟩
        intro z hz
        have hz2 : z ∈ xs ++ y :: ys := (stdMerge_perm _ _).subset hz
        rcases List.mem_append.mp hz2 with h1 | h2
        · exact hxp.1 z h1
        · rcases List.mem_cons.mp h2 with rfl | h3
          · exact hlt
          · exact locLe_trans hlt (hyp.1 z h3)

theorem seg_same (l : List location) (a : Nat) : seg l a a = [] := by
  simp [seg]

theorem seg_nil (a b : Nat) : seg [] a b = [] := by
  simp [seg]

theorem seg_all (l : List location) : seg l 0 l.length = l := by
  simp [seg]

theorem seg_take (l : List location) (k : Nat) : seg l 0 k = l.take k := by
  simp [seg]

theorem seg_len (l : List location) (a b : Nat) (h1 : a ≤ b)
    (h2 : b ≤ l.length) : (seg l a b).length = b - a := by
  simp only [seg, List.length_take, List.length_drop]
  omega

theorem seg_append_adj (l : List location) (a b c : Nat) (h1 : a ≤ b)
    (h2 : b ≤ c) : seg l a b ++ seg l b c = seg l a c := by
  simp only [seg]
  have hd : l.drop b = (l.drop a).drop (b - a) := by
    rw [List.drop_drop]
    congr 1
    omega
  rw [hd, ← List.take_add]
  congr 1
  omega

theorem seg_shift (u v : List location) (x y : Nat) (h : u.length ≤ x) :
    seg (u ++ v) x y = seg v (x - u.length) (y - u.length) := by
  simp only [seg]
  have hd := @List.drop_append location u v (x - u.length)
  rw [show u.length + (x - u.length) = x from by omega] at hd
  rw [hd]
  congr 1
  omega

theorem off_mono (o : List Nat) (ho : List.Chain' (· ≤ ·) o) :
    ∀ i j : Nat, i ≤ j → j < o.length → off o i ≤ off o j := by
  intro i j hij hj
  have hp : List.Pairwise (· ≤ ·) o := List.chain'_iff_pairwise.mp ho
  rcases Nat.eq_or_lt_of_le hij with rfl | hlt
  · exact le_refl _
  · have hi : i < o.length := lt_trans hlt hj
    have hg := List.pairwise_iff_get.mp hp ⟨i, hi⟩ ⟨j, hj⟩ hlt
    simp only [List.get_eq_getElem] at hg
    unfold off
    rw [List.getD_eq_getElem o 0 hi, List.getD_eq_getElem o 0 hj]
    exact hg

theorem mergePassFrom_stop (locs : List location) (o : List Nat)
    (n s i : Nat) (h : ¬ i < n) : mergePassFrom locs o n s i = [] := by
  rw [mergePassFrom, dif_neg (fun hc => h hc.1)]

theorem mergePassFrom_eq (locs : List location) (o : List Nat)
    (n s i : Nat) (h1 : i < n) (h2 : 0 < s) :
    mergePassFrom locs o n s i
      = stdMerge (seg locs (off o i) (off o (min (i + s) n)))
          (seg locs (off o (min (i + s) n)) (off o (min (i + 2 * s) n)))
        ++ mergePassFrom locs o n s (i + 2 * s) := by
  rw [mergePassFrom, dif_pos ⟨h1, h2⟩]
  have hm : (if i + s ≤ n then off o (i + s) else off o n)
      = off o (min (i + s) n) := by
    split_ifs with h <;> congr 1 <;> omega
  have he : (if i + 2 * s ≤ n then off o (i + 2 * s) else off o n)
      = off o (min (i + 2 * s) n) := by
    split_ifs with h <;> congr 1 <;> omega
  rw [hm, he]

theorem mergePass_spec (locs : List location) (o : List Nat) (n s : Nat)
    (hmono : ∀ i j : Nat, i ≤ j → j < o.length → off o i ≤ off o j)
    (hnlen : n < o.length)
    (hlast : off o n = locs.length)
    (hs : 0 < s)
    (hblocks : ∀ j : Nat, List.Pairwise locLe
      (seg locs (off o (min (j * s) n)) (off o (min ((j + 1) * s) n)))) :
    ∀ (d i q : Nat), n - i ≤ d → i = 2 * s * q →
    (mergePassFrom locs o n s i).Perm (seg locs (off o (min i n)) (off o n))
    ∧ ∀ j : Nat, List.Pairwise locLe
        (seg (mergePassFrom locs o n s i)
          (off o (min (i + j * (2 * s)) n) - off o (min i n))
          (off o (min (i + (j + 1) * (2 * s)) n) - off o (min i n))) := by
  intro d
  induction d with
  | zero =>
    intro i q hd _
    have hin : ¬ i < n := by omega
    rw [mergePassFrom_stop locs o n s i hin]
    constructor
    · rw [show min i n = n from by omega, seg_same]
    · intro j
      simp [seg_nil]
  | succ d ihd =>
    intro i q hd hiq
    by_cases hin : i < n
    · rw [mergePassFrom_eq locs o n s i hin hs]
      have honl : off o i ≤ off o (min (i + s) n) :=
        hmono _ _ (by omega) (by omega)
      have hmn2 : off o (min (i + s) n) ≤ off o (min (i + 2 * s) n) :=
        hmono _ _ (by omega) (by omega)
      have hen : off o (min (i + 2 * s) n) ≤ off o n :=
        hmono _ _ (by omega) (by omega)
      obtain ⟨ihperm, ihblocks⟩ := ihd (i + 2 * s) (q + 1) (by omega)
        (by rw [hiq]; ring)
      have hA : List.Pairwise locLe
          (seg locs (off o i) (off o (min (i + s) n))) := by
        have h2q : 2 * q * s = i := by rw [hiq]; ring
        have h2q1 : (2 * q + 1) * s = i + s := by rw [hiq]; ring
        have hb := hblocks (2 * q)
        rw [h2q, h2q1, show min i n = i from by omega] at hb
        exact hb
      have hB : List.Pairwise locLe
          (seg locs (off o (min (i + s) n)) (off o (min (i + 2 * s) n))) := by
        have h1 : (2 * q + 1) * s = i + s := by rw [hiq]; ring
        have h2 : (2 * q + 1 + 1) * s = i + 2 * s := by rw [hiq]; ring
        have hb := hblocks (2 * q + 1)
        rw [h1, h2] at hb
        exact hb
      have hlenA : (seg locs (off o i) (off o (min (i + s) n))).length
          = off o (min (i + s) n) - off o i :=
        seg_len _ _ _ honl (by omega)
      have hlenB : (seg locs (off o (min (i + s) n))
            (off o (min (i + 2 * s) n))).length
          = off o (min (i + 2 * s) n) - off o (min (i + s) n) :=
        seg_len _ _ _ hmn2 (by omega)
      have hlenM : (stdMerge (seg locs (off o i) (off o (min (i + s) n)))
            (seg locs (off o (min (i + s) n))
              (off o (min (i + 2 * s) n)))).length
          = off o (min (i + 2 * s) n) - off o i := by
        rw [stdMerge_length, hlenA, hlenB]
        omega
      constructor
      · have hAB : seg locs (off o i) (off o (min (i + s) n))
            ++ seg locs (off o (min (i + s) n)) (off o (min (i + 2 * s) n))
            = seg locs (off o i) (off o (min (i + 2 * s) n)) :=
          seg_append_adj _ _ _ _ honl hmn2
        have hfull : seg locs (off o i) (off o (min (i + 2 * s) n))
            ++ seg locs (off o (min (i + 2 * s) n)) (off o n)
            = seg locs (off o i) (off o n) :=
          seg_append_adj _ _ _ _ (le_trans honl hmn2) hen
        rw [show min i n = i from by omega]
        have hperm2 :=
          (stdMerge_perm (seg locs (off o i) (off o (min (i + s) n)))
            (seg locs (off o (min (i + s) n))
              (off o (min (i + 2 * s) n)))).append ihperm
        have heq : (seg locs (off o i) (off o (min (i + s) n))
              ++ seg locs (off o (min (i + s) n)) (off o (min (i + 2 * s) n)))
            ++ seg locs (off o (min (i + 2 * s) n)) (off o n)
            = seg locs (off o i) (off o n) := by
          rw [hAB, hfull]
        exact heq ▸ hperm2
      · intro j
        cases j with
        | zero =>
          have h01 : i + 0 * (2 * s) = i := by ring
          have h02 : i + (0 + 1) * (2 * s) = i + 2 * s := by ring
          rw [h01, h02, show min i n = i from by omega, Nat.sub_self, seg_take,
            show off o (min (i + 2 * s) n) - off o i
              = (stdMerge (seg locs (off o i) (off o (min (i + s) n)))
                  (seg locs (off o (min (i + s) n))
                    (off o (min (i + 2 * s) n)))).length from by omega,
            List.take_left]
          exact stdMerge_sorted _ _ hA hB
        | succ j2 =>
          have hstep1 : i + (j2 + 1) * (2 * s) = (i + 2 * s) + j2 * (2 * s) := by
            ring
          have hstep2 : i + (j2 + 1 + 1) * (2 * s)
              = (i + 2 * s) + (j2 + 1) * (2 * s) := by ring
          rw [hstep1, hstep2, show min i n = i from by omega]
          have hZ1 : off o (min (i + 2 * s) n)
              ≤ off o (min ((i + 2 * s) + j2 * (2 * s)) n) :=
            hmono _ _ (by omega) (by omega)
          have hZ2 : off o (min (i + 2 * s) n)
              ≤ off o (min ((i + 2 * s) + (j2 + 1) * (2 * s)) n) :=
            hmono _ _ (by omega) (by omega)
          rw [seg_shift _ _ _ _ (by omega)]
          rw [show off o (min ((i + 2 * s) + j2 * (2 * s)) n) - off o i
                - (stdMerge (seg locs (off o i) (off o (min (i + s) n)))
                    (seg locs (off o (min (i + s) n))
                      (off o (min (i + 2 * s) n)))).length
              = off o (min ((i + 2 * s) + j2 * (2 * s)) n)
                - off o (min (i + 2 * s) n) from by omega,
            show off o (min ((i + 2 * s) + (j2 + 1) * (2 * s)) n) - off o i
                - (stdMerge (seg locs (off o i) (off o (min (i + s) n)))
                    (seg locs (off o (min (i + s) n))
                      (off o (min (i + 2 * s) n)))).length
              = off o (min ((i + 2 * s) + (j2 + 1) * (2 * s)) n)
                - off o (min (i + 2 * s) n) from by omega]
          exact ihblocks j2
    · rw [mergePassFrom_stop locs o n s i hin]
      constructor
      · rw [show min i n = n from by omega, seg_same]
      · intro j
        simp [seg_nil]

theorem mergeSortPasses_stop (o : List Nat) (n s : Nat)
    (inout : List location) (h : ¬ s < n) :
    mergeSortPasses o n s inout = inout := by
  rw [mergeSortPasses, dif_neg (fun hc => h hc.1)]

theorem mergeSortPasses_step (o : List Nat) (n s : Nat)
    (inout : List location) (h1 : s < n) (h2 : 0 < s) :
    mergeSortPasses o n s inout
      = mergeSortPasses o n (2 * s) (mergePassFrom inout o n s 0) := by
  rw [mergeSortPasses, dif_pos ⟨h1, h2⟩]

theorem mergeSortPasses_spec (o : List Nat) (n : Nat)
    (hmono : ∀ i j : Nat, i ≤ j → j < o.length → off o i ≤ off o j)
    (hnlen : n < o.length)
    (h0 : off o 0 = 0) :
    ∀ (d s : Nat) (locs : List location), n - s ≤ d → 0 < s →
    off o n = locs.length →
    (∀ j : Nat, List.Pairwise locLe
      (seg locs (off o (min (j * s) n)) (off o (min ((j + 1) * s) n)))) →
    List.Pairwise locLe (mergeSortPasses o n s locs)
    ∧ (mergeSortPasses o n s locs).Perm locs := by
  intro d
  induction d with
  | zero =>
    intro s locs hd hs hlast hblocks
    have hsn : ¬ s < n := by omega
    rw [mergeSortPasses_stop o n s locs hsn]
    refine ⟨?_, List.Perm.refl _⟩
    have hb := hblocks 0
    rw [show (0 * s : Nat) = 0 from by ring, show min 0 n = 0 from by omega,
      h0, show ((0 + 1) * s : Nat) = s from by ring,
      show min s n = n from by omega, hlast, seg_all] at hb
    exact hb
  | succ d ihd =>
    intro s locs hd hs hlast hblocks
    by_cases hsn : s < n
    · rw [mergeSortPasses_step o n s locs hsn hs]
      obtain ⟨pperm, pblocks⟩ := mergePass_spec locs o n s hmono hnlen hlast
        hs hblocks n 0 0 (by omega) (by ring)
      have hperm0 : (mergePassFrom locs o n s 0).Perm locs := by
        rw [show min 0 n = 0 from by omega, h0, hlast, seg_all] at pperm
        exact pperm
      have hlast2 : off o n = (mergePassFrom locs o n s 0).length := by
        rw [hperm0.length_eq]
        exact hlast
      have hblocks2 : ∀ j : Nat, List.Pairwise locLe
          (seg (mergePassFrom locs o n s 0)
            (off o (min (j * (2 * s)) n)) (off o (min ((j + 1) * (2 * s)) n))) := by
        intro j
        have hb := pblocks j
        rw [show min 0 n = 0 from by omega, h0,
          show (0 + j * (2 * s) : Nat) = j * (2 * s) from by ring,
          show (0 + (j + 1) * (2 * s) : Nat) = (j + 1) * (2 * s) from by ring,
          Nat.sub_zero, Nat.sub_zero] at hb
        exact hb
      obtain ⟨hsorted, hperm⟩ := ihd (2 * s) (mergePassFrom locs o n s 0)
        (by omega) (by omega) hlast2 hblocks2
      exact ⟨hsorted, hperm.trans hperm0⟩
    · rw [mergeSortPasses_stop o n s locs hsn]
      refine ⟨?_, List.Perm.refl _⟩
      have hb := hblocks 0
      rw [show (0 * s : Nat) = 0 from by ring, show min 0 n = 0 from by omega,
        h0, show ((0 + 1) * s : Nat) = s from by ring,
        show min s n = n from by omega, hlast, seg_all] at hb
      exact hb

/-- C3: for every matches_sorter state in which offsets_ starts with 0, is
non-decreasing, ends with locs_.size(), and every run
locs_[offsets_[i] .. offsets_[i+1]) is sorted by (tgt, win): after sort(),
locs_ is non-decreasing under the (tgt, win) order and its multiset of
locations (expressed as a permutation) equals the multiset before the
call. -/
theorem C3_merge_sort_correct (m : matches_sorter)
    (h0 : m.offsets.head? = some 0)
    (hmono : List.Chain' (· ≤ ·) m.offsets)
    (hlast : m.offsets.getLast? = some m.locs.length)
    (hruns : ∀ i ∈ List.range (m.offsets.length - 1),
      List.Pairwise locLe (seg m.locs (off m.offsets i) (off m.offsets (i + 1)))) :
    List.Chain' locLe (matches_sorter.sort m).locs
    ∧ (matches_sorter.sort m).locs.Perm m.locs := by
  obtain ⟨locs, offsets⟩ := m
  simp only [matches_sorter.sort] at *
  by_cases hlen3 : offsets.length < 3
  · rw [merge_sort, if_pos hlen3]
    rcases offsets with _ | ⟨a, _ | ⟨b, _ | ⟨c, rest3⟩⟩⟩
    · simp at h0
    · have h0' : a = 0 := by simpa using h0
      have hl' : a = locs.length := by simpa using hlast
      have hnil : locs = [] := by
        rw [← List.length_eq_zero]
        omega
      subst hnil
      simp
    · have h0' : a = 0 := by simpa using h0
      have hl' : b = locs.length := by simpa using hlast
      have hr := hruns 0 (by simp)
      rw [show off [a, b] 0 = a from rfl, show off [a, b] 1 = b from rfl,
        h0', hl', seg_all] at hr
      exact ⟨List.chain'_iff_pairwise.mpr hr, List.Perm.refl _⟩
    · simp at hlen3
      omega
  · rw [merge_sort, if_neg hlen3]
    have hnlen : offsets.length - 1 < offsets.length := by omega
    have hne : offsets ≠ [] := by
      intro he
      subst he
      simp at hlen3
    have h0' : off offsets 0 = 0 := by
      cases offsets with
      | nil => simp at h0
      | cons a t =>
        have : a = 0 := by simpa using h0
        simpa [off] using this
    have hlast' : off offsets (offsets.length - 1) = locs.length := by
      rw [List.getLast?_eq_getLast _ hne] at hlast
      have hv := Option.some.inj hlast
      unfold off
      rw [List.getD_eq_getElem offsets 0 hnlen, ← hv, List.getLast_eq_getElem]
    have hblocks1 : ∀ j : Nat, List.Pairwise locLe
        (seg locs (off offsets (min (j * 1) (offsets.length - 1)))
          (off offsets (min ((j + 1) * 1) (offsets.length - 1)))) := by
      intro j
      by_cases hj : j < offsets.length - 1
      · have hr := hruns j (by simpa using hj)
        rw [show min (j * 1) (offsets.length - 1) = j from by omega,
          show min ((j + 1) * 1) (offsets.length - 1) = j + 1 from by omega]
        exact hr
      · rw [show min (j * 1) (offsets.length - 1) = offsets.length - 1 from by omega,
          show min ((j + 1) * 1) (offsets.length - 1) = offsets.length - 1 from by omega,
          seg_same]
        simp
    obtain ⟨hsorted, hperm⟩ := mergeSortPasses_spec offsets (offsets.length - 1)
      (off_mono offsets hmono) hnlen h0' (offsets.length - 1) 1 locs
      (by omega) (by omega) hlast' hblocks1
    exact ⟨List.chain'_iff_pairwise.mpr hsorted, hperm⟩

/-- Witness for C3 on a concrete two-run accumulator state. -/
theorem C3_witness :
    List.Chain' locLe
      (matches_sorter.sort ⟨[⟨1, 0⟩, ⟨2, 1⟩, ⟨0, 0⟩, ⟨9, 9⟩], [0, 2, 4]⟩).locs
    ∧ (matches_sorter.sort
        ⟨[⟨1, 0⟩, ⟨2, 1⟩, ⟨0, 0⟩, ⟨9, 9⟩], [0, 2, 4]⟩).locs.Perm
        [⟨1, 0⟩, ⟨2, 1⟩, ⟨0, 0⟩, ⟨9, 9⟩] :=
  C3_merge_sort_correct _ rfl (by simp [List.chain'_cons]) rfl (by decide)

end RMA
